import Mathlib

/-!
# Verification of the smart WAV splitter (src/audio/split.py)

Shallow embedding of the pure logic of the splitter:

* `find_optimal_cut_points` — the cut-point planner (the core algorithm);
* `get_audio_duration` — the duration probe, with the external process and
  JSON layer abstracted into an input datatype;
* `split_audio_file` — the segment writer, modelled as the list of
  (output path, extraction range) commands it issues.

Timestamps (seconds) are modelled as rationals `ℚ`: the Python program works
on floats, but every comparison and arithmetic operation in the planner is
exact on the decimal values involved, so `ℚ` is the faithful exact-arithmetic
reading of the algorithm.
-/

namespace VoiceClone

/-! ## Cut-point planner (find_optimal_cut_points, split.py lines 61-100) -/

/-- First inner scan of the planner loop (split.py lines 79-84):

    best_cut = None
    for silence_point in silence_points:
        if min_end <= silence_point <= ideal_end:
            best_cut = silence_point
        elif silence_point > ideal_end:
            break

keeps overwriting `best` with each in-window point, stops at the first point
past `ideal_end`, and returns the accumulated `best`. -/
def scanBest (min_end ideal_end : ℚ) : List ℚ → Option ℚ → Option ℚ
  | [], best => best
  | s :: rest, best =>
    if min_end ≤ s ∧ s ≤ ideal_end then scanBest min_end ideal_end rest (some s)
    else if ideal_end < s then best
    else scanBest min_end ideal_end rest best

/-- Second inner scan (split.py lines 88-91): the first silence point strictly
greater than `min_end`, if any. -/
def firstAfter (min_end : ℚ) : List ℚ → Option ℚ
  | [] => none
  | s :: rest => if min_end < s then some s else firstAfter min_end rest

/-- The cut chosen by one iteration of the planner loop (split.py lines 78-95):
the in-window scan, then the first-after-`min_end` fallback, then the hard
fallback at `ideal_end`. -/
def best_cut_of (silence_points : List ℚ) (min_end ideal_end : ℚ) : ℚ :=
  match scanBest min_end ideal_end silence_points none with
  | some b => b
  | none =>
    match firstAfter min_end silence_points with
    | some b => b
    | none => ideal_end

/-- The planner's while-loop (split.py lines 69-98), with explicit fuel: the
Python loop has no built-in bound, so the embedding returns `none` when the
fuel runs out (the loop would still be running).  `current_start` is the
cursor; the returned list is the sequence of appended cuts (the initial `0`
sentinel, dropped by line 100, is never placed in the list here). -/
def cutLoop (silence_points : List ℚ) (duration min_segment max_segment : ℚ) :
    Nat → ℚ → Option (List ℚ)
  | 0, _ => none
  | fuel + 1, current_start =>
    if current_start < duration then
      if duration ≤ current_start + max_segment then some []
      else
        (cutLoop silence_points duration min_segment max_segment fuel
            (best_cut_of silence_points (current_start + min_segment)
              (current_start + max_segment))).map
          (fun rest =>
            best_cut_of silence_points (current_start + min_segment)
              (current_start + max_segment) :: rest)
    else some []

/-- Fuel that provably suffices when `0 < min_segment`: the cursor advances by
at least `min_segment` per iteration, so `⌈duration / min_segment⌉` loop-body
executions (plus one final condition check) always reach termination. -/
def planFuel (duration min_segment : ℚ) : Nat :=
  (⌈duration / min_segment⌉).toNat + 1

/-- Cut-point planner, split.py lines 61-100.  Returns `some cuts` when the
loop terminates within `planFuel` iterations (always, for positive
`min_segment`), mirroring:

    if duration <= max_segment: return []
    ... while loop ...
    return cut_points[1:]  -/
def find_optimal_cut_points (duration : ℚ) (silence_points : List ℚ)
    (min_segment max_segment : ℚ) : Option (List ℚ) :=
  if duration ≤ max_segment then some []
  else cutLoop silence_points duration min_segment max_segment
    (planFuel duration min_segment) 0

/-! ## Duration probe (get_audio_duration, split.py lines 14-26)

The function shells out to ffprobe and parses its JSON output:

    data = json.loads(result.stdout)
    return float(data['format']['duration'])
    except (subprocess.CalledProcessError, KeyError, ValueError): return None

The process/JSON layer is abstracted into an input datatype recording the
only facts the control flow inspects: whether the tool call raised
`CalledProcessError`, whether the duration field is present (absence raises
`KeyError`), and whether `float()` accepts the field's text (rejection raises
`ValueError`).  Python's `float` accepts any decimal literal, signed or not,
so a field denoting a negative number is a `parsable` value with a negative
rational, not an `unparsable` one. -/

/-- The duration field of the probed metadata, as seen by `float()`: either
text that parses to the rational `q` (possibly negative), or text whose parse
raises `ValueError`. -/
inductive FieldValue where
  | parsable (q : ℚ)
  | unparsable
  deriving DecidableEq

/-- Outcome of the ffprobe invocation plus JSON decoding, as seen by
`get_audio_duration`: the tool raised, or it produced metadata whose
format/duration field is absent (`none`) or holds `v`. -/
inductive ProbeInput where
  | toolError
  | output (duration_field : Option FieldValue)
  deriving DecidableEq

/-- Duration probe, split.py lines 14-26: returns the parsed float unless one
of the three caught exceptions fires, in which case it returns `None`. -/
def get_audio_duration : ProbeInput → Option ℚ
  | ProbeInput.toolError => none
  | ProbeInput.output none => none
  | ProbeInput.output (some FieldValue.unparsable) => none
  | ProbeInput.output (some (FieldValue.parsable q)) => some q

/-! ## Segment writer (split_audio_file, split.py lines 102-137)

The writer iterates over `cut_points + [None]`, emitting for each entry one
ffmpeg stream-copy command: `-ss start -t (end - start)` for a bounded
segment, `-ss start` (to end of file) for the final `None` entry, after which
it breaks.  The embedding records the sequence of (output path, extraction
range) commands; the actual process invocation and its per-segment
error-swallowing are I/O. -/

/-- Extraction range of one emitted ffmpeg command: a bounded segment
(`-ss start -t length`) or the final tail segment (`-ss start`, to end of
file). -/
inductive SegmentSpec where
  | ranged (start length : ℚ)
  | toEnd (start : ℚ)
  deriving DecidableEq

/-- Three-digit zero-padded rendering of the segment index, modelling the
Python format spec `{segment_num:03d}` for natural numbers. -/
def pad3 (n : Nat) : String :=
  if n < 10 then "00" ++ toString n
  else if n < 100 then "0" ++ toString n
  else toString n

/-- Output filename of segment `n`, modelling
`f"split_{file_stem}_{segment_num:03d}.wav"` (split.py line 111). -/
def segName (file_stem : String) (n : Nat) : String :=
  "split_" ++ file_stem ++ "_" ++ pad3 n ++ ".wav"

/-- POSIX `os.path.join` for the shapes the program uses (a directory and a
relative filename). -/
def path_join (d f : String) : String :=
  if d = "" then f
  else if d.endsWith ("/") then d ++ f
  else d ++ "/" ++ f

/-- Loop body of the segment writer (split.py lines 110-137): walks
`cut_points + [None]`, carrying `start_time` and `segment_num`, and stops
right after the `None` entry (the `break`). -/
def splitLoop (output_dir file_stem : String) :
    List (Option ℚ) → ℚ → Nat → List (String × SegmentSpec)
  | [], _, _ => []
  | some e :: rest, start_time, segment_num =>
    (path_join output_dir (segName file_stem segment_num),
      SegmentSpec.ranged start_time (e - start_time))
      :: splitLoop output_dir file_stem rest e (segment_num + 1)
  | none :: _, start_time, segment_num =>
    [(path_join output_dir (segName file_stem segment_num),
      SegmentSpec.toEnd start_time)]

/-- Segment writer, split.py lines 102-137.  `file_stem` stands for
`Path(input_file).stem`; the returned list holds, in order, the output path
and extraction range of each ffmpeg command the function issues. -/
def split_audio_file (file_stem : String) (cut_points : List ℚ)
    (output_dir : String) : List (String × SegmentSpec) :=
  splitLoop output_dir file_stem (cut_points.map some ++ [none]) 0 0

/-- Boundary pairs of the segments induced by a cut sequence: each segment's
(start, end), from the synthetic start 0 through each cut to `duration`. -/
def segBounds (duration : ℚ) (cuts : List ℚ) : List (ℚ × ℚ) :=
  List.zip (0 :: cuts) (cuts ++ [duration])

/-! ## Behaviour of the inner scans -/

/-- Whatever `scanBest` returns is either an in-window member of the list or
the unchanged initial accumulator. -/
lemma scanBest_some (min_end ideal_end : ℚ) (l : List ℚ) :
    ∀ (best : Option ℚ) (b : ℚ), scanBest min_end ideal_end l best = some b →
      (b ∈ l ∧ min_end ≤ b ∧ b ≤ ideal_end) ∨ best = some b := by
  induction l with
  | nil => exact fun best b h => Or.inr h
  | cons s rest ih =>
    intro best b h
    rw [scanBest] at h
    split_ifs at h with h1 h2
    · rcases ih (some s) b h with h3 | h3
      · exact Or.inl ⟨List.mem_cons_of_mem _ h3.1, h3.2⟩
      · obtain rfl := Option.some.inj h3
        exact Or.inl ⟨List.mem_cons_self _ _, h1.1, h1.2⟩
    · exact Or.inr h
    · rcases ih best b h with h3 | h3
      · exact Or.inl ⟨List.mem_cons_of_mem _ h3.1, h3.2⟩
      · exact Or.inr h3

/-- Once the accumulator holds a value, `scanBest` cannot come back empty. -/
lemma scanBest_isSome_of_some (min_end ideal_end : ℚ) (l : List ℚ) :
    ∀ (x : ℚ), (scanBest min_end ideal_end l (some x)).isSome := by
  induction l with
  | nil => exact fun _ => rfl
  | cons s rest ih =>
    intro x
    rw [scanBest]
    split_ifs with h1 h2
    · exact ih s
    · rfl
    · exact ih x

/-- On a sorted list that contains an in-window point, `scanBest` finds one. -/
lemma scanBest_isSome (min_end ideal_end : ℚ) :
    ∀ (l : List ℚ), List.Sorted (· ≤ ·) l →
      ∀ s₀ ∈ l, min_end ≤ s₀ → s₀ ≤ ideal_end →
      ∀ best, (scanBest min_end ideal_end l best).isSome := by
  intro l
  induction l with
  | nil => intro _ s₀ hmem; cases hmem
  | cons s rest ih =>
    intro hs s₀ hmem h1 h2 best
    rw [List.sorted_cons] at hs
    rw [scanBest]
    split_ifs with hin hgt
    · exact scanBest_isSome_of_some _ _ _ _
    · exfalso
      rcases List.mem_cons.mp hmem with rfl | hm
      · exact absurd h2 (not_le.mpr hgt)
      · exact absurd h2 (not_le.mpr (lt_of_lt_of_le hgt (hs.1 _ hm)))
    · rcases List.mem_cons.mp hmem with rfl | hm
      · exact absurd ⟨h1, not_lt.mp hgt⟩ hin
      · exact ih hs.2 s₀ hm h1 h2 best

/-- On a sorted list, the value `scanBest` returns dominates every in-window
point of the list. -/
lemma scanBest_max (min_end ideal_end : ℚ) :
    ∀ (l : List ℚ), List.Sorted (· ≤ ·) l →
      ∀ (best : Option ℚ) (b : ℚ), scanBest min_end ideal_end l best = some b →
      ∀ t ∈ l, min_end ≤ t → t ≤ ideal_end → t ≤ b := by
  intro l
  induction l with
  | nil => intro _ best b _ t ht; cases ht
  | cons s rest ih =>
    intro hs best b hb t ht ht1 ht2
    rw [List.sorted_cons] at hs
    rw [scanBest] at hb
    split_ifs at hb with hin hgt
    · rcases List.mem_cons.mp ht with rfl | hm
      · rcases scanBest_some min_end ideal_end rest (some t) b hb with h3 | h3
        · exact hs.1 _ h3.1
        · exact le_of_eq (Option.some.inj h3)
      · exact ih hs.2 (some s) b hb t hm ht1 ht2
    · exfalso
      rcases List.mem_cons.mp ht with rfl | hm
      · exact absurd ht2 (not_le.mpr hgt)
      · exact absurd ht2 (not_le.mpr (lt_of_lt_of_le hgt (hs.1 _ hm)))
    · rcases List.mem_cons.mp ht with rfl | hm
      · exact absurd ⟨ht1, not_lt.mp hgt⟩ hin
      · exact ih hs.2 best b hb t hm ht1 ht2

/-- The fallback scan returns a member of the list strictly past `min_end`. -/
lemma firstAfter_some (min_end : ℚ) :
    ∀ (l : List ℚ) (b : ℚ), firstAfter min_end l = some b → b ∈ l ∧ min_end < b := by
  intro l
  induction l with
  | nil => intro b h; cases h
  | cons s rest ih =>
    intro b h
    rw [firstAfter] at h
    split_ifs at h with h1
    · obtain rfl := Option.some.inj h
      exact ⟨List.mem_cons_self _ _, h1⟩
    · rcases ih b h with ⟨hm, hlt⟩
      exact ⟨List.mem_cons_of_mem _ hm, hlt⟩

/-- Lower bound on the chosen cut: every branch of the per-iteration choice
stays at or above `min_end`. -/
lemma best_cut_of_lb (sp : List ℚ) (min_end ideal_end : ℚ) (h : min_end ≤ ideal_end) :
    min_end ≤ best_cut_of sp min_end ideal_end := by
  unfold best_cut_of
  cases hsb : scanBest min_end ideal_end sp none with
  | some b =>
    rcases scanBest_some min_end ideal_end sp none b hsb with h3 | h3
    · exact h3.2.1
    · cases h3
  | none =>
    cases hfa : firstAfter min_end sp with
    | some b => exact le_of_lt (firstAfter_some min_end sp b hfa).2
    | none => exact h

/-- The chosen cut is a silence point, or else it is exactly `ideal_end`
(the hard fallback). -/
lemma best_cut_of_cases (sp : List ℚ) (min_end ideal_end : ℚ) :
    best_cut_of sp min_end ideal_end ∈ sp ∨ best_cut_of sp min_end ideal_end = ideal_end := by
  unfold best_cut_of
  cases hsb : scanBest min_end ideal_end sp none with
  | some b =>
    rcases scanBest_some min_end ideal_end sp none b hsb with h3 | h3
    · exact Or.inl h3.1
    · cases h3
  | none =>
    cases hfa : firstAfter min_end sp with
    | some b => exact Or.inl (firstAfter_some min_end sp b hfa).1
    | none => exact Or.inr rfl

/-! ## Invariants of the planner loop -/

/-- Consecutive cuts of any terminating run are at least `min_segment`
apart, starting from the cursor the run was entered with. -/
lemma cutLoop_chain_lb (sp : List ℚ) (d mS MS : ℚ) (hm : mS ≤ MS) :
    ∀ (fuel : Nat) (cs : ℚ) (l : List ℚ), cutLoop sp d mS MS fuel cs = some l →
      List.Chain' (fun a b => a + mS ≤ b) (cs :: l) := by
  intro fuel
  induction fuel with
  | zero => intro cs l h; cases h
  | succ fuel ih =>
    intro cs l h
    rw [cutLoop] at h
    split_ifs at h with h1 h2
    · obtain rfl := Option.some.inj h
      exact List.chain'_singleton _
    · obtain ⟨l', hl', rfl⟩ := Option.map_eq_some'.mp h
      exact List.chain'_cons.mpr
        ⟨best_cut_of_lb sp _ _ (by linarith), ih _ _ hl'⟩
    · obtain rfl := Option.some.inj h
      exact List.chain'_singleton _

/-- When every silence point lies below `d`, so does every emitted cut. -/
lemma cutLoop_mem_lt (sp : List ℚ) (d mS MS : ℚ) (hsp : ∀ s ∈ sp, s < d) :
    ∀ (fuel : Nat) (cs : ℚ) (l : List ℚ), cutLoop sp d mS MS fuel cs = some l →
      ∀ x ∈ l, x < d := by
  intro fuel
  induction fuel with
  | zero => intro cs l h; cases h
  | succ fuel ih =>
    intro cs l h
    rw [cutLoop] at h
    split_ifs at h with h1 h2
    · obtain rfl := Option.some.inj h
      intro x hx; cases hx
    · obtain ⟨l', hl', rfl⟩ := Option.map_eq_some'.mp h
      intro x hx
      rcases List.mem_cons.mp hx with rfl | hx'
      · rcases best_cut_of_cases sp (cs + mS) (cs + MS) with h3 | h3
        · exact hsp _ h3
        · rw [h3]; linarith
      · exact ih _ _ hl' x hx'
    · obtain rfl := Option.some.inj h
      intro x hx; cases hx

/-- Every emitted cut is a silence point or sits exactly `max_segment` after
the preceding cut (the hard fallback), the cursor the run was entered with
playing the role of the cut preceding the first one. -/
lemma cutLoop_provenance (sp : List ℚ) (d mS MS : ℚ) :
    ∀ (fuel : Nat) (cs : ℚ) (l : List ℚ), cutLoop sp d mS MS fuel cs = some l →
      List.Chain' (fun a b => b ∈ sp ∨ b = a + MS) (cs :: l) := by
  intro fuel
  induction fuel with
  | zero => intro cs l h; cases h
  | succ fuel ih =>
    intro cs l h
    rw [cutLoop] at h
    split_ifs at h with h1 h2
    · obtain rfl := Option.some.inj h
      exact List.chain'_singleton _
    · obtain ⟨l', hl', rfl⟩ := Option.map_eq_some'.mp h
      exact List.chain'_cons.mpr ⟨best_cut_of_cases sp _ _, ih _ _ hl'⟩
    · obtain rfl := Option.some.inj h
      exact List.chain'_singleton _

/-- Fuel sufficiency: the cursor gains at least `min_segment` per iteration,
so `n` iterations (plus the final condition check) finish whenever
`d ≤ cs + n * min_segment`. -/
lemma cutLoop_isSome (sp : List ℚ) (d mS MS : ℚ) (hm : mS ≤ MS) :
    ∀ (n : Nat) (cs : ℚ), d ≤ cs + n * mS →
      (cutLoop sp d mS MS (n + 1) cs).isSome := by
  intro n
  induction n with
  | zero =>
    intro cs hcs
    rw [cutLoop, if_neg (not_lt.mpr (by push_cast at hcs; linarith))]
    rfl
  | succ n ih =>
    intro cs hcs
    rw [cutLoop]
    split_ifs with h1 h2
    · rfl
    · rw [Option.isSome_map']
      apply ih
      have hbc := best_cut_of_lb sp (cs + mS) (cs + MS) (by linarith)
      push_cast at hcs ⊢
      linarith
    · rfl

/-- Arithmetic core of the termination bound: `⌈d / m⌉` steps of size `m`
cover `d`. -/
lemma ceil_mul_self_le (d mS : ℚ) (h0 : 0 < mS) :
    d ≤ ((⌈d / mS⌉.toNat : ℕ) : ℚ) * mS := by
  rcases le_or_lt d 0 with hd | hd
  · exact le_trans hd (mul_nonneg (Nat.cast_nonneg _) h0.le)
  · have h2 : 0 < d / mS := div_pos hd h0
    have h4 : (0 : ℤ) ≤ ⌈d / mS⌉ := Int.ceil_nonneg h2.le
    have h5 : ((⌈d / mS⌉.toNat : ℕ) : ℚ) = ((⌈d / mS⌉ : ℤ) : ℚ) := by
      exact_mod_cast congrArg (fun z : ℤ => (z : ℚ)) (Int.toNat_of_nonneg h4)
    rw [h5]
    calc d = d / mS * mS := (div_mul_cancel₀ d (ne_of_gt h0)).symm
      _ ≤ ((⌈d / mS⌉ : ℤ) : ℚ) * mS :=
        mul_le_mul_of_nonneg_right (Int.le_ceil _) h0.le

/-- For positive `min_segment` the planner always terminates within its
allotted fuel. -/
lemma plan_isSome (d : ℚ) (sp : List ℚ) (mS MS : ℚ) (h0 : 0 < mS) (hm : mS ≤ MS) :
    (find_optimal_cut_points d sp mS MS).isSome := by
  unfold find_optimal_cut_points
  split_ifs with h1
  · rfl
  · apply cutLoop_isSome sp d mS MS hm
    rw [zero_add]
    exact ceil_mul_self_le d mS h0

/-- Top-level form of `cutLoop_chain_lb`: consecutive elements of the
planner's result, with the synthetic start 0 in front, are at least
`min_segment` apart. -/
lemma plan_chain_lb (d : ℚ) (sp : List ℚ) (mS MS : ℚ) (hm : mS ≤ MS)
    (l : List ℚ) (h : find_optimal_cut_points d sp mS MS = some l) :
    List.Chain' (fun a b => a + mS ≤ b) (0 :: l) := by
  unfold find_optimal_cut_points at h
  split_ifs at h with h1
  · obtain rfl := Option.some.inj h
    exact List.chain'_singleton _
  · exact cutLoop_chain_lb sp d mS MS hm _ _ _ h

/-- Top-level form of `cutLoop_mem_lt`: when every silence point lies below
the duration, so does every returned cut. -/
lemma plan_mem_lt (d : ℚ) (sp : List ℚ) (mS MS : ℚ) (hsp : ∀ s ∈ sp, s < d)
    (l : List ℚ) (h : find_optimal_cut_points d sp mS MS = some l) :
    ∀ x ∈ l, x < d := by
  unfold find_optimal_cut_points at h
  split_ifs at h with h1
  · obtain rfl := Option.some.inj h
    intro x hx; cases hx
  · exact cutLoop_mem_lt sp d mS MS hsp _ _ _ h

/-- Top-level form of `cutLoop_provenance`. -/
lemma plan_provenance (d : ℚ) (sp : List ℚ) (mS MS : ℚ)
    (l : List ℚ) (h : find_optimal_cut_points d sp mS MS = some l) :
    List.Chain' (fun a b => b ∈ sp ∨ b = a + MS) (0 :: l) := by
  unfold find_optimal_cut_points at h
  split_ifs at h with h1
  · obtain rfl := Option.some.inj h
    exact List.chain'_singleton _
  · exact cutLoop_provenance sp d mS MS _ _ _ h

/-- A chain relation holds on each adjacent pair formed by zipping a list
with its own tail. -/
lemma chain_zip_tail {R : ℚ → ℚ → Prop} :
    ∀ (a : ℚ) (l : List ℚ), List.Chain' R (a :: l) →
      ∀ p ∈ (a :: l).zip l, R p.1 p.2 := by
  intro a l
  induction l generalizing a with
  | nil => intro _ p hp; cases hp
  | cons b t ih =>
    intro hc p hp
    rw [List.zip_cons_cons] at hp
    rcases List.mem_cons.mp hp with rfl | hm
    · exact (List.chain'_cons.mp hc).1
    · exact ih b (List.chain'_cons.mp hc).2 p hm

/-- Dropping the last segment's bounds leaves the pairs of consecutive
cuts. -/
lemma segBounds_dropLast (d : ℚ) :
    ∀ (a : ℚ) (l : List ℚ), ((a :: l).zip (l ++ [d])).dropLast = (a :: l).zip l := by
  intro a l
  induction l generalizing a with
  | nil => rfl
  | cons b t ih =>
    show ((a, b) :: ((b :: t).zip (t ++ [d]))).dropLast = (a, b) :: (b :: t).zip t
    rw [List.dropLast_cons_of_ne_nil, ih b]
    cases t <;> simp [List.zip_cons_cons]

/-! ## The claims -/

/-- C1: in any planner-loop iteration entered with cursor `current_start`
(so the loop condition holds and the break at `ideal_end >= duration` is not
taken) on an ascending `silence_points` list containing at least one point
`s₀` of the admissible window
`[current_start + min_segment, current_start + max_segment]`, the cut the
iteration appends — `best_cut_of` of that window, which the loop then conses
onto the remaining run — is a silence point of the window that dominates
every silence point of the window: the largest such point. -/
theorem best_cut_is_largest_silence_in_window
    (silence_points : List ℚ) (duration current_start min_segment max_segment : ℚ)
    (fuel : Nat)
    (hsort : List.Sorted (· ≤ ·) silence_points)
    (s₀ : ℚ) (hmem : s₀ ∈ silence_points)
    (hlo : current_start + min_segment ≤ s₀) (hhi : s₀ ≤ current_start + max_segment)
    (hlt : current_start < duration) (hideal : current_start + max_segment < duration) :
    cutLoop silence_points duration min_segment max_segment (fuel + 1) current_start =
      (cutLoop silence_points duration min_segment max_segment fuel
          (best_cut_of silence_points (current_start + min_segment)
            (current_start + max_segment))).map
        (fun rest =>
          best_cut_of silence_points (current_start + min_segment)
            (current_start + max_segment) :: rest) ∧
    best_cut_of silence_points (current_start + min_segment)
        (current_start + max_segment) ∈ silence_points ∧
    current_start + min_segment ≤
      best_cut_of silence_points (current_start + min_segment)
        (current_start + max_segment) ∧
    best_cut_of silence_points (current_start + min_segment)
        (current_start + max_segment) ≤ current_start + max_segment ∧
    ∀ t ∈ silence_points, current_start + min_segment ≤ t →
      t ≤ current_start + max_segment →
      t ≤ best_cut_of silence_points (current_start + min_segment)
        (current_start + max_segment) := by
  have hscan := scanBest_isSome (current_start + min_segment)
    (current_start + max_segment) silence_points hsort s₀ hmem hlo hhi none
  obtain ⟨b, hb⟩ := Option.isSome_iff_exists.mp hscan
  have hbval : best_cut_of silence_points (current_start + min_segment)
      (current_start + max_segment) = b := by
    unfold best_cut_of
    rw [hb]
  have hspec := scanBest_some (current_start + min_segment)
    (current_start + max_segment) silence_points none b hb
  rcases hspec with hspec | hspec
  · refine ⟨?_, ?_, ?_, ?_, ?_⟩
    · rw [cutLoop, if_pos hlt, if_neg (not_le.mpr hideal)]
    · rw [hbval]; exact hspec.1
    · rw [hbval]; exact hspec.2.1
    · rw [hbval]; exact hspec.2.2
    · intro t ht ht1 ht2
      rw [hbval]
      exact scanBest_max (current_start + min_segment) (current_start + max_segment)
        silence_points hsort none b hb t ht ht1 ht2
  · cases hspec

/-- Witness for C1 at the worked example of the specification: in the first
iteration (cursor 0, window `[5, 15]`) the appended cut is 14, a member of
the silence list dominating every silence point in the window. -/
theorem best_cut_is_largest_silence_in_window_witness :
    cutLoop [6, 11, 14, 17, 22, 28, 33] 40 5 15 (8 + 1) 0 =
      (cutLoop [6, 11, 14, 17, 22, 28, 33] 40 5 15 8
          (best_cut_of [6, 11, 14, 17, 22, 28, 33] (0 + 5) (0 + 15))).map
        (fun rest =>
          best_cut_of [6, 11, 14, 17, 22, 28, 33] (0 + 5) (0 + 15) :: rest) ∧
    best_cut_of [6, 11, 14, 17, 22, 28, 33] (0 + 5) (0 + 15) ∈
      ([6, 11, 14, 17, 22, 28, 33] : List ℚ) ∧
    (0 : ℚ) + 5 ≤ best_cut_of [6, 11, 14, 17, 22, 28, 33] (0 + 5) (0 + 15) ∧
    best_cut_of [6, 11, 14, 17, 22, 28, 33] (0 + 5) (0 + 15) ≤ (0 : ℚ) + 15 ∧
    ∀ t ∈ ([6, 11, 14, 17, 22, 28, 33] : List ℚ), (0 : ℚ) + 5 ≤ t →
      t ≤ (0 : ℚ) + 15 →
      t ≤ best_cut_of [6, 11, 14, 17, 22, 28, 33] (0 + 5) (0 + 15) :=
  best_cut_is_largest_silence_in_window [6, 11, 14, 17, 22, 28, 33] 40 0 5 15 8
    (by with_unfolding_all decide) 11 (by with_unfolding_all decide)
    (by with_unfolding_all decide) (by with_unfolding_all decide)
    (by with_unfolding_all decide) (by with_unfolding_all decide)

/-- C2 as stated is false: on `duration = 40`,
`silence_points = [6, 11, 14, 17, 22, 28, 33]`, `min_segment = 5`,
`max_segment = 15` the planner does not return `[11, 22, 33]` — in the first
window `[5, 15]` the ascending scan keeps overwriting `best_cut` up to 14
(which is `≤ 15`), so the first cut is 14, not 11. -/
theorem example_cut_sequence_cex :
    find_optimal_cut_points 40 [6, 11, 14, 17, 22, 28, 33] 5 15 ≠
      some [11, 22, 33] := by
  with_unfolding_all decide

/-- C2 amended: on the specification's worked example the planner returns
exactly `[14, 28]` — window `[5, 15]` selects 14 (the largest silence point
`≤ 15`), then window `[19, 29]` selects 28, then `ideal_end = 43 ≥ 40` stops
the loop. -/
theorem example_cut_sequence_actual :
    find_optimal_cut_points 40 [6, 11, 14, 17, 22, 28, 33] 5 15 =
      some [14, 28] := by
  with_unfolding_all decide

/-- C3 as stated is false: with `duration = 40`, ascending
`silence_points = [39]` inside `[0, 40)`, `min_segment = 5`,
`max_segment = 15`, the planner returns `[39]` (all hypotheses of the claim
hold), so the gap from the last cut to `duration` is `40 - 39 = 1`: it is
neither `≥ min_segment` nor equal to `max_segment`, and no no-candidate hard
fallback occurred (39 is a silence point, not `0 + 15`). -/
theorem gap_claim_cex :
    List.Sorted (· ≤ ·) ([39] : List ℚ) ∧
    (∀ s ∈ ([39] : List ℚ), 0 ≤ s ∧ s < 40) ∧
    (0 : ℚ) < 5 ∧ (5 : ℚ) ≤ 15 ∧
    find_optimal_cut_points 40 [39] 5 15 = some [39] ∧
    ¬ (5 : ℚ) ≤ 40 - 39 ∧ ((40 : ℚ) - 39 ≠ 15) := by
  with_unfolding_all decide

/-- C3 amended (the counterexample forces the final gap out of the
guarantee): for every ascending silence list inside `[0, duration)` and
`0 < min_segment ≤ max_segment`, every gap between consecutive elements of
the planner's result — including the gap from the synthetic start 0 to the
first cut, but excluding the gap from the last cut to `duration` — is at
least `min_segment`.  (Gaps produced by the no-candidate hard fallback equal
exactly `max_segment ≥ min_segment`, so no exception clause is needed.) -/
theorem gaps_ge_min_except_final
    (duration : ℚ) (silence_points : List ℚ) (min_segment max_segment : ℚ)
    (hsort : List.Sorted (· ≤ ·) silence_points)
    (hrange : ∀ s ∈ silence_points, 0 ≤ s ∧ s < duration)
    (h0 : 0 < min_segment) (hm : min_segment ≤ max_segment)
    (l : List ℚ)
    (h : find_optimal_cut_points duration silence_points min_segment max_segment =
      some l) :
    List.Chain' (fun a b => min_segment ≤ b - a) (0 :: l) :=
  (plan_chain_lb duration silence_points min_segment max_segment hm l h).imp
    (fun a b hab => by linarith)

/-- Witness for C3's amended statement at the specification's worked
example. -/
theorem gaps_ge_min_except_final_witness :
    List.Chain' (fun a b => (5 : ℚ) ≤ b - a) (0 :: [14, 28]) :=
  gaps_ge_min_except_final 40 [6, 11, 14, 17, 22, 28, 33] 5 15
    (by with_unfolding_all decide) (by with_unfolding_all decide)
    (by with_unfolding_all decide) (by with_unfolding_all decide)
    [14, 28] (by with_unfolding_all decide)

/-- C4: for every ascending silence list inside `[0, duration)` and
`0 < min_segment ≤ max_segment`, every segment induced by the planner's
result (consecutive boundary pairs starting at 0 and ending at `duration`)
except possibly the last one has length at least `min_segment`. -/
theorem segments_ge_min_except_last
    (duration : ℚ) (silence_points : List ℚ) (min_segment max_segment : ℚ)
    (hsort : List.Sorted (· ≤ ·) silence_points)
    (hrange : ∀ s ∈ silence_points, 0 ≤ s ∧ s < duration)
    (h0 : 0 < min_segment) (hm : min_segment ≤ max_segment)
    (l : List ℚ)
    (h : find_optimal_cut_points duration silence_points min_segment max_segment =
      some l) :
    ∀ p ∈ (segBounds duration l).dropLast, min_segment ≤ p.2 - p.1 := by
  have hchain : List.Chain' (fun a b => min_segment ≤ b - a) (0 :: l) :=
    (plan_chain_lb duration silence_points min_segment max_segment hm l h).imp
      (fun a b hab => by linarith)
  intro p hp
  rw [segBounds, segBounds_dropLast duration 0 l] at hp
  exact chain_zip_tail 0 l hchain p hp

/-- Witness for C4 at the specification's worked example: the two non-final
segments are `(0, 14)` and `(14, 28)`, and each has length at least 5. -/
theorem segments_ge_min_except_last_witness :
    (5 : ℚ) ≤ ((0 : ℚ), (14 : ℚ)).2 - ((0 : ℚ), (14 : ℚ)).1 ∧
    (5 : ℚ) ≤ ((14 : ℚ), (28 : ℚ)).2 - ((14 : ℚ), (28 : ℚ)).1 :=
  ⟨segments_ge_min_except_last 40 [6, 11, 14, 17, 22, 28, 33] 5 15
      (by with_unfolding_all decide) (by with_unfolding_all decide)
      (by with_unfolding_all decide) (by with_unfolding_all decide)
      [14, 28] (by with_unfolding_all decide)
      ((0 : ℚ), (14 : ℚ)) (by with_unfolding_all decide),
    segments_ge_min_except_last 40 [6, 11, 14, 17, 22, 28, 33] 5 15
      (by with_unfolding_all decide) (by with_unfolding_all decide)
      (by with_unfolding_all decide) (by with_unfolding_all decide)
      [14, 28] (by with_unfolding_all decide)
      ((14 : ℚ), (28 : ℚ)) (by with_unfolding_all decide)⟩

/-- C5: for every ascending silence list inside `[0, duration)` and
`0 < min_segment ≤ max_segment`, the planner's result is strictly increasing
(including past the synthetic start 0) and every element lies strictly
between 0 and `duration`. -/
theorem cuts_strict_increasing_in_range
    (duration : ℚ) (silence_points : List ℚ) (min_segment max_segment : ℚ)
    (hsort : List.Sorted (· ≤ ·) silence_points)
    (hrange : ∀ s ∈ silence_points, 0 ≤ s ∧ s < duration)
    (h0 : 0 < min_segment) (hm : min_segment ≤ max_segment)
    (l : List ℚ)
    (h : find_optimal_cut_points duration silence_points min_segment max_segment =
      some l) :
    List.Chain' (· < ·) (0 :: l) ∧ ∀ x ∈ l, 0 < x ∧ x < duration := by
  have hchain : List.Chain' (· < ·) (0 :: l) :=
    (plan_chain_lb duration silence_points min_segment max_segment hm l h).imp
      (fun a b hab => by linarith)
  refine ⟨hchain, fun x hx => ⟨?_, ?_⟩⟩
  · exact (List.pairwise_cons.mp (List.chain'_iff_pairwise.mp hchain)).1 x hx
  · exact plan_mem_lt duration silence_points min_segment max_segment
      (fun s hs => (hrange s hs).2) l h x hx

/-- Witness for C5 at the specification's worked example. -/
theorem cuts_strict_increasing_in_range_witness :
    List.Chain' (· < ·) ((0 : ℚ) :: [14, 28]) ∧
    ∀ x ∈ ([14, 28] : List ℚ), 0 < x ∧ x < 40 :=
  cuts_strict_increasing_in_range 40 [6, 11, 14, 17, 22, 28, 33] 5 15
    (by with_unfolding_all decide) (by with_unfolding_all decide)
    (by with_unfolding_all decide) (by with_unfolding_all decide)
    [14, 28] (by with_unfolding_all decide)

/-- C6: for `0 < min_segment ≤ max_segment`, the cut chosen by every
iteration is strictly greater than the cursor (this holds in all three
branches), so the cursor strictly advances, and the loop started at cursor 0
completes within `⌈duration / min_segment⌉` body executions — running
`cutLoop` with that much fuel (plus one unit for the final condition check)
never exhausts it. -/
theorem planner_terminates
    (duration : ℚ) (silence_points : List ℚ) (min_segment max_segment : ℚ)
    (h0 : 0 < min_segment) (hm : min_segment ≤ max_segment) :
    (∀ cs : ℚ, cs < best_cut_of silence_points (cs + min_segment) (cs + max_segment)) ∧
    (cutLoop silence_points duration min_segment max_segment
      ((⌈duration / min_segment⌉).toNat + 1) 0).isSome := by
  constructor
  · intro cs
    have hlb := best_cut_of_lb silence_points (cs + min_segment) (cs + max_segment)
      (by linarith)
    linarith
  · apply cutLoop_isSome silence_points duration min_segment max_segment hm
    rw [zero_add]
    exact ceil_mul_self_le duration min_segment h0

/-- Witness for C6 at the specification's worked example: 8 iterations of
fuel suffice for duration 40 and minimum segment 5. -/
theorem planner_terminates_witness :
    (∀ cs : ℚ, cs <
      best_cut_of [6, 11, 14, 17, 22, 28, 33] (cs + 5) (cs + 15)) ∧
    (cutLoop [6, 11, 14, 17, 22, 28, 33] 40 5 15
      ((⌈(40 : ℚ) / 5⌉).toNat + 1) 0).isSome :=
  planner_terminates 40 [6, 11, 14, 17, 22, 28, 33] 5 15
    (by with_unfolding_all decide) (by with_unfolding_all decide)

/-- C7 as stated is false: a metadata whose duration field denotes a
negative number is parsed successfully by Python's `float` (which accepts
signed decimal literals), so `get_audio_duration` returns the negative value
instead of the failure the claim requires. -/
theorem negative_duration_returned_cex :
    get_audio_duration (ProbeInput.output (some (FieldValue.parsable (-7)))) =
      some (-7) ∧ (-7 : ℚ) < 0 := by
  exact ⟨rfl, by norm_num⟩

/-- C7 amended: `get_audio_duration` returns a failure (`none`) exactly when
the tool errors, the metadata lacks a duration field, or the field's value is
unparsable as a real number; a parsable negative value is returned as a
duration, not rejected. -/
theorem get_audio_duration_none_iff :
    ∀ inp : ProbeInput, get_audio_duration inp = none ↔
      inp = ProbeInput.toolError ∨ inp = ProbeInput.output none ∨
      inp = ProbeInput.output (some FieldValue.unparsable) := by
  intro inp
  cases inp with
  | toolError => simp [get_audio_duration]
  | output o =>
    cases o with
    | none => simp [get_audio_duration]
    | some v =>
      cases v with
      | parsable q => simp [get_audio_duration]
      | unparsable => simp [get_audio_duration]

/-- C8: for `0 < min_segment ≤ max_segment` the planner terminates with a
result that is empty exactly when `duration ≤ max_segment`: past that
threshold the first iteration always appends a cut before any break can be
reached. -/
theorem result_empty_iff_short
    (duration : ℚ) (silence_points : List ℚ) (min_segment max_segment : ℚ)
    (h0 : 0 < min_segment) (hm : min_segment ≤ max_segment) :
    ∃ l, find_optimal_cut_points duration silence_points min_segment max_segment =
      some l ∧ (l = [] ↔ duration ≤ max_segment) := by
  rcases le_or_lt duration max_segment with h1 | h1
  · refine ⟨[], ?_, by simp [h1]⟩
    unfold find_optimal_cut_points
    rw [if_pos h1]
  · obtain ⟨l, hl⟩ := Option.isSome_iff_exists.mp
      (plan_isSome duration silence_points min_segment max_segment h0 hm)
    refine ⟨l, hl, iff_of_false ?_ (not_le.mpr h1)⟩
    unfold find_optimal_cut_points at hl
    rw [if_neg (not_le.mpr h1), planFuel] at hl
    rw [cutLoop, if_pos (by linarith : (0 : ℚ) < duration),
      if_neg (by rw [zero_add]; exact not_le.mpr h1)] at hl
    obtain ⟨l', _, rfl⟩ := Option.map_eq_some'.mp hl
    simp

/-- Witness for C8 at the specification's worked example (duration 40 is
above the maximum segment length 15, so the cut list is non-empty). -/
theorem result_empty_iff_short_witness :
    ∃ l, find_optimal_cut_points 40 [6, 11, 14, 17, 22, 28, 33] 5 15 =
      some l ∧ (l = [] ↔ (40 : ℚ) ≤ 15) :=
  result_empty_iff_short 40 [6, 11, 14, 17, 22, 28, 33] 5 15
    (by with_unfolding_all decide) (by with_unfolding_all decide)

/-- C9: for every ascending silence list and `0 < min_segment ≤ max_segment`,
every element of the planner's result is either a silence point of the input
or exactly `max_segment` past the immediately preceding cut (with 0 standing
before the first element); no other values are emitted. -/
theorem cuts_from_silence_or_max_step
    (duration : ℚ) (silence_points : List ℚ) (min_segment max_segment : ℚ)
    (hsort : List.Sorted (· ≤ ·) silence_points)
    (h0 : 0 < min_segment) (hm : min_segment ≤ max_segment)
    (l : List ℚ)
    (h : find_optimal_cut_points duration silence_points min_segment max_segment =
      some l) :
    List.Chain' (fun a b => b ∈ silence_points ∨ b = a + max_segment) (0 :: l) :=
  plan_provenance duration silence_points min_segment max_segment l h

/-- Witness for C9 on a run that exercises both sources: with no silence
points the cuts `[15, 30]` are each `max_segment` past their predecessor. -/
theorem cuts_from_silence_or_max_step_witness :
    List.Chain' (fun a b => b ∈ ([] : List ℚ) ∨ b = a + 15) (0 :: [15, 30]) :=
  cuts_from_silence_or_max_step 40 [] 5 15
    (by with_unfolding_all decide) (by with_unfolding_all decide)
    (by with_unfolding_all decide)
    [15, 30] (by with_unfolding_all decide)

/-- C10: invoked with an empty cut-point sequence, the segment writer issues
exactly one extraction command: output file `split_<stem>_000.wav` in the
output directory, extracting from offset 0 to the end of the input, and
nothing else. -/
theorem split_empty_cuts_single_segment (output_dir file_stem : String) :
    split_audio_file file_stem [] output_dir =
      [(path_join output_dir ("split_" ++ file_stem ++ "_000.wav"),
        SegmentSpec.toEnd 0)] := by
  show [(path_join output_dir (segName file_stem 0), SegmentSpec.toEnd 0)] = _
  have hname : segName file_stem 0 = "split_" ++ file_stem ++ "_000.wav" := by
    show "split_" ++ file_stem ++ "_" ++ pad3 0 ++ ".wav" = _
    have hp : pad3 0 = "000" := rfl
    rw [hp]
    simp [String.append_assoc]
  rw [hname]

end VoiceClone
